import Mathlib

/-!
Verification development for the static site generator in `main.py`.

The program's strings are embedded as `List Char` (named `Str` below); its
filesystem is embedded as an association list from path to file content plus
a modification-time map; the side effect of copying an image into the output
directory is recorded as a list of `(source, destination)` pairs returned
alongside the transformed text.  The three `re.sub` passes of
`process_content` are embedded as explicit left-to-right scanners that
reproduce the regex engine's semantics (leftmost match, lazy groups, no
rescanning of replacements) for the three concrete patterns used by the
program.
-/

namespace Gen

/-- Program strings, embedded as lists of characters. -/
abbrev Str := List Char

/-- Recorded `shutil.copy2` effects: `(source path, destination path)`. -/
abbrev Ops := List (Str × Str)

/-- Python `\s` on the ASCII range: space, tab, newline, CR, FF, VT. -/
def pyWs (c : Char) : Bool :=
  c = ' ' ∨ c = '\t' ∨ c = '\n' ∨ c = '\r' ∨ c = Char.ofNat 12 ∨ c = Char.ofNat 11

/-- Python `str.strip()`: drop leading and trailing whitespace. -/
def stripStr (s : Str) : Str :=
  ((s.dropWhile pyWs).reverse.dropWhile pyWs).reverse

/-- Python `str.lower()` (ASCII). -/
def lowerStr (s : Str) : Str := s.map Char.toLower

/-- Python `str.isdigit()` (ASCII): nonempty and all digits. -/
def pyIsdigit (s : Str) : Bool := !s.isEmpty && s.all Char.isDigit

/-- Python `str.split('|')`: splitting on every `|`, keeping empty segments. -/
def splitBar : Str → List Str
  | [] => [[]]
  | c :: rest =>
      if c = '|' then [] :: splitBar rest
      else
        match splitBar rest with
        | s :: ss => (c :: s) :: ss
        | [] => [[c]]

/-- Python `str.strip('|')`: drop leading and trailing `|` characters. -/
def stripPipes (s : Str) : Str :=
  ((s.dropWhile (· = '|')).reverse.dropWhile (· = '|')).reverse

/-- Python `os.path.isabs` on POSIX: path begins with `/`. -/
def isabs : Str → Bool
  | '/' :: _ => true
  | _ => false

/-- Python `os.path.join` for two components on POSIX. -/
def pjoin (a b : Str) : Str :=
  if isabs b then b
  else if a = [] then b
  else if a.getLast? = some '/' then a ++ b
  else a ++ '/' :: b

/-- Python `os.path.basename`: the part after the last `/`. -/
def basename (p : Str) : Str :=
  (p.reverse.takeWhile (· ≠ '/')).reverse

/-- Python `os.path.splitext(p)[0]`: drop the extension after the last dot,
counting a dot only when the basename has a non-dot character before it. -/
def splitextRoot (p : Str) : Str :=
  let base := basename p
  let stem := base.dropWhile (· = '.')
  if '.' ∈ stem.drop 1 then
    let extLen := ((base.reverse.takeWhile (· ≠ '.')).length) + 1
    p.take (p.length - extLen)
  else p

/-!
`remove_frontmatter` applies `re.sub` with the pattern
`^---\s*\n(.*?\n)---\s*\n` under `re.DOTALL`.  Since `^` is anchored at
position zero (no `re.MULTILINE`), at most one match, at the very start,
is removed.  The matcher below reproduces the engine's backtracking order:
the first `\s*` is greedy, the group `(.*?\n)` is lazy, the closing `\s*`
is greedy.
-/

/-- All ways `\s*\n` can match a prefix of `s`, as the list of remainders,
ordered by increasing length of the consumed prefix (the greedy engine
tries them in reverse order). -/
def wsNlSplits : Str → List Str
  | [] => []
  | c :: rest =>
      (if c = '\n' then [rest] else []) ++
      (if pyWs c then wsNlSplits rest else [])

/-- The closing `---\s*\n` of the frontmatter pattern, tried right after
a newline at which the lazy group may stop: three dashes followed by the
longest `\s*\n` prefix (the greedy `\s*` backtracks only to find the final
mandatory newline, so the last candidate wins). -/
def closeAt (rest : Str) : Option Str :=
  match rest with
  | '-' :: '-' :: '-' :: rest2 => (wsNlSplits rest2).getLast?
  | _ => none

/-- Continuation `(.*?\n)---\s*\n` of the frontmatter pattern: the lazy
group ends at the first newline that is followed by a successful closing
`---\s*\n`; returns the remainder after the whole match. -/
def findClose : Str → Option Str
  | [] => none
  | c :: rest =>
      if c = '\n' then
        match closeAt rest with
        | some rem => some rem
        | none => findClose rest
      else findClose rest

/-- Try the continuation after each candidate for the opening `\s*\n`,
in the (greedy) order in which the list presents them. -/
def tryOpens : List Str → Option Str
  | [] => none
  | r :: rs =>
      match findClose r with
      | some rem => some rem
      | none => tryOpens rs

/-- The anchored frontmatter match: `some remainder` when the pattern
`^---\s*\n(.*?\n)---\s*\n` matches a prefix of `s`. -/
def fmMatch (s : Str) : Option Str :=
  match s with
  | '-' :: '-' :: '-' :: rest => tryOpens (wsNlSplits rest).reverse
  | _ => none

/-- `remove_frontmatter` from `main.py`. -/
def removeFrontmatter (s : Str) : Str :=
  match fmMatch s with
  | some rem => rem
  | none => s

/-!
Scanners for the three `re.sub` passes of `process_content`.  Each scanner
walks the text left to right; at a position where the pattern fails the
engine moves on by one character, and replacement text is never rescanned
within the same pass.  The `Aux` versions carry fuel (initially the text
length) so that every definition is structurally recursive and hence
evaluable by `decide`/`rfl`; each step consumes at least one character, so
the fuel never runs out.
-/

/-- Inner part `(.+?)\]\]` shared by the embed pattern `!\[\[(.+?)\]\]` and
the link pattern `\[\[(.+?)\]\]`: the lazy nonempty group of non-newline
characters up to the first following `]]`.  Returns the group and the
remainder after `]]`. -/
def scanInner (acc : Str) : Str → Option (Str × Str)
  | [] => none
  | c :: rest =>
      if c = ']' ∧ rest.head? = some ']' ∧ acc ≠ [] then
        some (acc.reverse, rest.tail)
      else if c = '\n' then none
      else scanInner (c :: acc) rest

/-- Part `\|.+?\)` of the optional third group of the bare-image pattern:
lazy nonempty run of non-newline characters up to the first `)` (the
leading `|` has already been consumed by the caller). -/
def scanG3 (acc : Str) : Str → Option (Str × Str)
  | [] => none
  | c :: rest =>
      if c = ')' ∧ acc ≠ [] then some (acc.reverse, rest)
      else if c = '\n' then none
      else scanG3 (c :: acc) rest

/-- Part `(.+?)(\|.+?)?\)` of the bare-image pattern: group 2 is lazy and
nonempty; at each stop the optional group 3 (greedy `?`, so tried first)
must start with `|` and reach a `)`, otherwise a literal `)` closes the
match with group 3 absent.  Returns `(group2, group3 with its leading bar
or empty, remainder)`. -/
def scanPath (acc : Str) : Str → Option (Str × Str × Str)
  | [] => none
  | c :: rest =>
      if c = '\n' then none
      else if c = '|' ∧ acc ≠ [] then
        match scanG3 [] rest with
        | some (g3c, rest') => some (acc.reverse, '|' :: g3c, rest')
        | none => scanPath (c :: acc) rest
      else if c = ')' ∧ acc ≠ [] then some (acc.reverse, [], rest)
      else scanPath (c :: acc) rest

/-- Parts `(.*?)\]\((.+?)(\|.+?)?\)` of the bare-image pattern
`!\[(.*?)\]\((.+?)(\|.+?)?\)`: the lazy group 1 (possibly empty) stops at
each `](`; if the rest of the pattern fails there, group 1 absorbs the
`](` and the scan continues.  Returns `(alt, group2, group3, remainder)`. -/
def scanAltPath (acc : Str) : Str → Option (Str × Str × Str × Str)
  | [] => none
  | c :: rest =>
      if c = '\n' then none
      else if c = ']' ∧ rest.head? = some '(' then
        match scanPath [] rest.tail with
        | some (g2, g3, r) => some (acc.reverse, g2, g3, r)
        | none => scanAltPath (c :: acc) rest
      else scanAltPath (c :: acc) rest

/-- One pass of `re.sub(r'!\[\[(.+?)\]\]', f, s)` where the replacement
callback also returns recorded copy effects. -/
def subEmbedsAux (f : Str → Str × Ops) : Nat → Str → Str × Ops
  | 0, s => (s, [])
  | fuel + 1, s =>
      match s with
      | '!' :: '[' :: '[' :: rest =>
          match scanInner [] rest with
          | some (inner, rest') =>
              let rep := f inner
              let tl := subEmbedsAux f fuel rest'
              (rep.1 ++ tl.1, rep.2 ++ tl.2)
          | none =>
              let tl := subEmbedsAux f fuel ('[' :: '[' :: rest)
              ('!' :: tl.1, tl.2)
      | c :: rest =>
          let tl := subEmbedsAux f fuel rest
          (c :: tl.1, tl.2)
      | [] => ([], [])

def subEmbedsWith (f : Str → Str × Ops) (s : Str) : Str × Ops :=
  subEmbedsAux f s.length s

/-- One pass of `re.sub(r'\[\[(.+?)\]\]', f, s)`. -/
def subLinksAux (f : Str → Str) : Nat → Str → Str
  | 0, s => s
  | fuel + 1, s =>
      match s with
      | '[' :: '[' :: rest =>
          match scanInner [] rest with
          | some (inner, rest') => f inner ++ subLinksAux f fuel rest'
          | none => '[' :: subLinksAux f fuel ('[' :: rest)
      | c :: rest => c :: subLinksAux f fuel rest
      | [] => []

def subLinksWith (f : Str → Str) (s : Str) : Str :=
  subLinksAux f s.length s

/-- One pass of `re.sub(r'!\[(.*?)\]\((.+?)(\|.+?)?\)', f, s)`; the
callback receives groups 1, 2 and 3 (group 3 `[]` when absent). -/
def subMdImagesAux (f : Str → Str → Str → Str × Ops) : Nat → Str → Str × Ops
  | 0, s => (s, [])
  | fuel + 1, s =>
      match s with
      | '!' :: '[' :: rest =>
          match scanAltPath [] rest with
          | some (alt, g2, g3, rest') =>
              let rep := f alt g2 g3
              let tl := subMdImagesAux f fuel rest'
              (rep.1 ++ tl.1, rep.2 ++ tl.2)
          | none =>
              let tl := subMdImagesAux f fuel ('[' :: rest)
              ('!' :: tl.1, tl.2)
      | c :: rest =>
          let tl := subMdImagesAux f fuel rest
          (c :: tl.1, tl.2)
      | [] => ([], [])

def subMdImagesWith (f : Str → Str → Str → Str × Ops) (s : Str) : Str × Ops :=
  subMdImagesAux f s.length s

/-!
The run environment: vault and output directories, the configured page
list (`config['pages']`), the filesystem as an association list from path
to content, the modification-time map used by `generate_site`
(`none` models an `OSError` from `os.path.getmtime`/`open`), and the
external Markdown renderer (`none` models a renderer exception).
-/

structure Env where
  vault : Str
  out : Str
  pages : List Str
  fs : List (Str × Str)
  mtime : Str → Option Int
  render : Str → Option Str

/-- File content lookup (`open(...).read()`). -/
def lookupFS (env : Env) (p : Str) : Option Str := env.fs.lookup p

/-- `os.path.exists`. -/
def existsFS (env : Env) (p : Str) : Bool := (lookupFS env p).isSome

/-- `attr.strip().lower()` applied to one attribute token. -/
def normTok (a : Str) : Str := lowerStr (stripStr a)

/-- `attr in ['left', 'right']` on a normalized token. -/
def isDirTok (a : Str) : Bool := a = ("left".data) ∨ a = ("right".data)

/-- The attribute loop of `process_image`: one left-to-right pass over the
tokens; a `left`/`right` token (stripped, lowercased) overwrites the float
direction, otherwise a purely numeric token overwrites the size.  Returns
`(size, float_direction)`. -/
def scanAttrs (attributes : List Str) : Option Str × Option Str :=
  attributes.foldl
    (fun p a =>
      let a' := normTok a
      if isDirTok a' then (p.1, some a')
      else if pyIsdigit a' then (some a', p.2)
      else p)
    (none, none)

/-- The direction tokens of an attribute list, normalized, in scan order. -/
def dirToks (attributes : List Str) : List Str :=
  (attributes.map normTok).filter isDirTok

/-- The width tokens of an attribute list (numeric and not taken by the
direction branch), normalized, in scan order. -/
def sizeToks (attributes : List Str) : List Str :=
  (attributes.map normTok).filter (fun a => !isDirTok a && pyIsdigit a)

/-- The last element of `l`, defaulting to `x`. -/
def lastOr (l : List Str) (x : Option Str) : Option Str :=
  match l.getLast? with
  | some v => some v
  | none => x

/-- `process_image` from `main.py`: resolve the path (attachments folder
first, then vault root, absolute paths as-is), copy the image into
`output/images` and build the `<img>` tag; `none` when the image is not
found (the recorded copy list is then empty). -/
def processImage (env : Env) (path : Str) (attributes : List Str) :
    Option Str × Ops :=
  let sf := scanAttrs attributes
  let full :=
    if isabs path then path
    else
      let p1 := pjoin (pjoin env.vault ("attachments".data)) path
      if existsFS env p1 then p1 else pjoin env.vault path
  if existsFS env full then
    let fname := basename full
    let tag :=
      ("<img src=\"images/".data) ++ fname ++ ("\" alt=\"".data) ++ fname ++
        ("\"".data) ++
        (match sf.1 with
         | some s => (" width=\"".data) ++ s ++ ("\"".data)
         | none => []) ++
        (match sf.2 with
         | some d => (" style=\"float: ".data) ++ d ++ ("; margin: 10px;\"".data)
         | none => []) ++
        (">".data)
    (some tag, [(full, pjoin (pjoin env.out ("images".data)) fname)])
  else (none, [])

/-- The image extensions recognized by `process_embeds`. -/
def imageExts : List Str :=
  [".png".data, ".jpg".data, ".jpeg".data, ".gif".data]

/-- `any(path.lower().endswith(ext) for ext in [...])`. -/
def isImagePath (path : Str) : Bool :=
  imageExts.any (fun e => e.isSuffixOf (lowerStr path))

/-- `process_embeds` from `main.py`, with the recursive
`process_content` call abstracted as `recur`: split the matched group on
`|`; image extensions go to `process_image` (the original `![[...]]` text
is kept when the image is missing); otherwise append `.md`, read the note
from the vault root, strip its frontmatter and recurse (the original
text is kept when the note is missing). -/
def embedCB (env : Env) (recur : Str → Str × Ops) (inner : Str) : Str × Ops :=
  let parts := splitBar inner
  let path := stripStr (parts.headD [])
  let attributes := parts.tail
  if isImagePath path then
    match processImage env path attributes with
    | (some r, ops) => (r, ops)
    | (none, ops) => ('!' :: '[' :: '[' :: inner ++ ("]]".data), ops)
  else
    let embedFilename := path ++ (".md".data)
    let fullEmbedPath := pjoin env.vault embedFilename
    match lookupFS env fullEmbedPath with
    | some c => recur (removeFrontmatter c)
    | none => ('!' :: '[' :: '[' :: inner ++ ("]]".data), [])

/-- `process_links` from `main.py`: the last `|`-segment is the visible
text, the first is the target; targets listed (with `.md`) in
`config['pages']` become `[text](target.html)`, anything else degrades to
the bare visible text. -/
def processLinksCB (env : Env) (inner : Str) : Str :=
  let parts := splitBar inner
  let linkText := stripStr (parts.getLastD [])
  let linkTarget := stripStr (parts.headD [])
  let linkFilename := linkTarget ++ (".md".data)
  if linkFilename ∈ env.pages then
    '[' :: linkText ++ ']' :: '(' :: linkTarget ++ (".html)".data)
  else linkText

/-- `process_markdown_images` from `main.py`: group 3 (with its leading
`|`) is stripped of outer bars and split into attributes; a missing image
reproduces the full original matched text. -/
def mdImageCB (env : Env) (alt g2 g3 : Str) : Str × Ops :=
  let attributes := if g3 = [] then [] else splitBar (stripPipes g3)
  match processImage env g2 attributes with
  | (some r, ops) => (r, ops)
  | (none, ops) =>
      ('!' :: '[' :: alt ++ ']' :: '(' :: g2 ++ g3 ++ [')'], ops)

/-- `process_content` from `main.py`, indexed by fuel: fuel `11 - depth`
matches the guard `if depth > 10: return content` and the recursive call
at `depth + 1`.  The three passes run in order — embeds, links, bare
Markdown images — each over the entire current text. -/
def processContentAux (env : Env) : Nat → Str → Str × Ops
  | 0, content => (content, [])
  | fuel + 1, content =>
      let r1 := subEmbedsWith (embedCB env (processContentAux env fuel)) content
      let c2 := subLinksWith (processLinksCB env) r1.1
      let r3 := subMdImagesWith (mdImageCB env) c2
      (r3.1, r1.2 ++ r3.2)

/-- `process_content(content, vault_path, output_path, config, depth)`:
returns the transformed text together with the image copies performed. -/
def processContent (env : Env) (content : Str) (depth : Nat) : Str × Ops :=
  processContentAux env (11 - depth) content

/-!
`generate_site`: each configured page is processed inside a
`try`/`except` that catches any per-page failure (missing or unreadable
source file, renderer error) and skips the page; the surviving pages are
then sorted by modification time, newest first, and handed to the index
template and to `generate_feeds`.
-/

/-- The page record appended to `processed_pages` on success. -/
structure ProcessedPage where
  title : Str
  link : Str
  content : Str
  lastModified : Int
deriving DecidableEq

/-- The body of the per-page `try` block: modification time, file read and
renderer must all succeed; any failure (`none`) models the caught
exception and yields no record. -/
def processPage (env : Env) (page : Str) : Option ProcessedPage :=
  let markdownPath := pjoin env.vault page
  let outputFile := splitextRoot page ++ (".html".data)
  match env.mtime markdownPath, lookupFS env markdownPath with
  | some t, some raw =>
      let content := removeFrontmatter raw
      let processed := processContent env content 0
      match env.render processed.1 with
      | some htmlContent =>
          some ⟨splitextRoot page, outputFile, htmlContent, t⟩
      | none => none
  | _, _ => none

/-- The comparison of `processed_pages.sort(key=..., reverse=True)`:
newest first. -/
def pageLE (a b : ProcessedPage) : Bool := b.lastModified ≤ a.lastModified

/-- The `processed_pages` list after the loop and the sort — exactly the
sequence handed to `index.html` and to `generate_feeds`. -/
def sitePages (env : Env) : List ProcessedPage :=
  (env.pages.filterMap (processPage env)).mergeSort pageLE

/-- One entry built by the loop in `generate_feeds`: published and updated
both take the page's last-modified timestamp. -/
structure FeedEntry where
  title : Str
  link : Str
  content : Str
  published : Int
  updated : Int
deriving DecidableEq

/-- The feed entries, in the order `generate_feeds` receives the pages. -/
def feedEntriesOf (env : Env) : List FeedEntry :=
  (sitePages env).map
    (fun p => ⟨p.title, p.link, p.content, p.lastModified, p.lastModified⟩)

/-!
Spec-side definitions and concrete environments used by the theorems.
-/

/-- The spec's notion of a frontmatter block at position zero, following
its words: a line of exactly `---`, any content, a line of exactly `---`,
then a newline.  Stated for comparison with the implementation's
`fmMatch`, whose delimiter lines tolerate trailing whitespace. -/
def specBlockAtStart (t : Str) : Prop :=
  ∃ body rest, t = (("---\n").data) ++ (body ++ ((("---\n").data) ++ rest))

/-- A text whose frontmatter body is immediately followed by a second
frontmatter block. -/
def t4CE : Str := ("---\na\n---\n---\nb\n---\nX").data

/-- A text whose opening delimiter line carries a trailing space. -/
def t5CE : Str := ("--- \nx\n---\n").data

/-- A vault with no files and no configured pages. -/
def envC1 : Env :=
  ⟨("vault").data, ("out").data, [], [], fun _ => none, fun s => some s⟩

/-- The vault of the C7 scenario: `A.md` links to and embeds `B`. -/
def env7 : Env :=
  ⟨("vault").data, ("out").data, [("A.md").data, ("B.md").data],
    [(("vault/A.md").data, ("See [[B]] and ![[B]].").data),
     (("vault/B.md").data, ("Hello world").data)],
    fun _ => none, fun s => some s⟩

/-- A vault whose attachments folder holds `photo.png`. -/
def env8 : Env :=
  ⟨("vault").data, ("out").data, [],
    [(("vault/attachments/photo.png").data, ("IMG").data)],
    fun _ => none, fun s => some s⟩

/-- A vault for link resolution: only `B.md` is a configured page. -/
def envL : Env :=
  ⟨("vault").data, ("out").data, [("B.md").data], [],
    fun _ => none, fun s => some s⟩

/-- A run in which `A.md` processes cleanly while `Bad.md` cannot even be
stat-ed (its modification time and content reads fail). -/
def envW9 : Env :=
  ⟨("vault").data, ("out").data, [("A.md").data, ("Bad.md").data],
    [(("vault/A.md").data, ("Hi").data)],
    fun p => if p = ("vault/A.md").data then some 5 else none,
    fun s => some s⟩

/-- The page record `A.md` produces under `envW9`. -/
def pageA9 : ProcessedPage :=
  ⟨("A").data, ("A.html").data, ("Hi").data, 5⟩

/-- The image tag `process_image` emits for `photo.png` with attributes
`[300, 400, left, right]` (the later tokens win). -/
def tagLateWins : Str :=
  ("<img src=\"images/photo.png\" alt=\"photo.png\" width=\"400\" style=\"float: right; margin: 10px;\">").data

/-- The tag the claim's first-match-wins reading would predict for the
same attribute list. -/
def tagFirstWins : Str :=
  ("<img src=\"images/photo.png\" alt=\"photo.png\" width=\"300\" style=\"float: left; margin: 10px;\">").data

/-!
## Theorems
-/

/-- C2: whenever `depth` exceeds 10, `process_content` returns its input
content unchanged (and performs no image copies), so expansion of any
embed graph — circular ones included — is cut off after a fixed number of
levels and the transformation is a total, deterministic function. -/
theorem c2_depth_guard (env : Env) (content : Str) (depth : Nat)
    (h : 10 < depth) : processContent env content depth = (content, []) := by
  unfold processContent
  have h0 : 11 - depth = 0 := by omega
  rw [h0, processContentAux]

theorem c2_depth_guard_witness :
    10 < 11 ∧ processContent envC1 (("x").data) 11 = ((("x").data), []) :=
  ⟨by decide, c2_depth_guard envC1 (("x").data) 11 (by decide)⟩

/-- C1 fails on the code: in a vault without `Missing.md` (and with
`Missing.md` not configured as a page), the full three-pass transformation
of `![[Missing]]` yields `!Missing`, not the unchanged literal text — the
embed pass preserves the syntax but the link pass then strips the inner
brackets. -/
theorem c1_counterexample :
    (processContent envC1 (("![[Missing]]").data) 0).1 = ("!Missing").data ∧
      ("!Missing").data ≠ ("![[Missing]]").data :=
  ⟨by decide, by decide⟩

/-- C7: in the two-note vault, `A.md`'s body transforms so that `[[B]]`
becomes a hyperlink to `B.html` and `![[B]]` is replaced inline by
`B.md`'s body `Hello world` (read from the vault root, frontmatter
stripped, recursively processed); no image copies occur. -/
theorem c7_scenario :
    processContent env7 (("See [[B]] and ![[B]].").data) 0 =
      ((("See [B](B.html) and Hello world.").data), []) := by
  decide

/-- C8: `![[photo.png|300|left]]` with `photo.png` under `attachments/`
produces the `<img>` tag with src `images/photo.png`, alt `photo.png`,
width `300` and float `left`, and records the copy of the asset to
`out/images/photo.png`. -/
theorem c8_image_embed :
    processContent env8 (("![[photo.png|300|left]]").data) 0 =
      ((("<img src=\"images/photo.png\" alt=\"photo.png\" width=\"300\" style=\"float: left; margin: 10px;\">").data),
        [((("vault/attachments/photo.png").data), (("out/images/photo.png").data))]) := by
  decide

/-- C3 fails on the code: with the attribute list `[300, 400, left,
right]` the emitted image construct carries width `400` and float
`right` — the LAST matching token per category wins, not the first. -/
theorem c3_counterexample :
    (processImage env8 (("photo.png").data)
        [("300").data, ("400").data, ("left").data, ("right").data]).1 =
      some tagLateWins ∧ tagLateWins ≠ tagFirstWins :=
  ⟨by decide, by decide⟩

theorem lastOr_cons (v : Str) (l : List Str) (x : Option Str) :
    lastOr (v :: l) x = lastOr l (some v) := by
  cases l with
  | nil => rfl
  | cons w l =>
      cases e : (w :: l).getLast? with
      | none => simp at e
      | some u => rw [lastOr, lastOr, List.getLast?_cons_cons, e]

theorem lastOr_none (l : List Str) : lastOr l none = l.getLast? := by
  cases e : l.getLast? <;> simp [lastOr, e]

theorem scanAttrs_foldl (attributes : List Str) (p : Option Str × Option Str) :
    attributes.foldl
      (fun p a =>
        let a' := normTok a
        if isDirTok a' then (p.1, some a')
        else if pyIsdigit a' then (some a', p.2)
        else p) p =
      (lastOr (sizeToks attributes) p.1, lastOr (dirToks attributes) p.2) := by
  induction attributes generalizing p with
  | nil => simp [sizeToks, dirToks, lastOr]
  | cons a l ih =>
      rw [List.foldl_cons, ih]
      by_cases hd : isDirTok (normTok a)
      · rw [show sizeToks (a :: l) = sizeToks l by
            simp [sizeToks, List.filter_cons, hd],
          show dirToks (a :: l) = normTok a :: dirToks l by
            simp [dirToks, List.filter_cons, hd],
          lastOr_cons]
        simp [hd]
      · by_cases hn : pyIsdigit (normTok a)
        · rw [show sizeToks (a :: l) = normTok a :: sizeToks l by
              simp [sizeToks, List.filter_cons, hd, hn],
            show dirToks (a :: l) = dirToks l by
              simp [dirToks, List.filter_cons, hd],
            lastOr_cons]
          simp [hd, hn]
        · rw [show sizeToks (a :: l) = sizeToks l by
              simp [sizeToks, List.filter_cons, hd, hn],
            show dirToks (a :: l) = dirToks l by
              simp [dirToks, List.filter_cons, hd]]
          simp [hd, hn]

/-- C3 as amended: scanning the attribute list left to right, the LAST
normalized `left`/`right` token determines the float direction and the
LAST purely numeric token (not claimed by the direction branch) determines
the width; each result is a single optional value, so at most one width
and one float apply to the emitted construct. -/
theorem c3_attr_last_match (attributes : List Str) :
    scanAttrs attributes =
      ((sizeToks attributes).getLast?, (dirToks attributes).getLast?) := by
  rw [scanAttrs, scanAttrs_foldl, lastOr_none, lastOr_none]

theorem wsNlSplits_suffix {s x : Str} (h : x ∈ wsNlSplits s) :
    x.length < s.length ∧ x <:+ s := by
  induction s with
  | nil => simp [wsNlSplits] at h
  | cons c rest ih =>
      rw [wsNlSplits] at h
      rcases List.mem_append.mp h with h1 | h2
      · have hx : x = rest := by
          by_cases hc : c = '\n'
          · rw [if_pos hc] at h1; simpa using h1
          · rw [if_neg hc] at h1; simp at h1
        rw [hx]
        exact ⟨by simp, List.suffix_cons c rest⟩
      · have h2' : x ∈ wsNlSplits rest := by
          by_cases hw : pyWs c
          · rwa [if_pos hw] at h2
          · rw [if_neg hw] at h2; simp at h2
        obtain ⟨hl, hsuf⟩ := ih h2'
        exact ⟨Nat.lt_trans hl (by simp), hsuf.trans (List.suffix_cons c rest)⟩

theorem closeAt_suffix {rest rem : Str} (h : closeAt rest = some rem) :
    rem.length < rest.length ∧ rem <:+ rest := by
  unfold closeAt at h
  split at h
  · next rest2 =>
      have hmem := List.mem_of_getLast?_eq_some h
      obtain ⟨hl, hsuf⟩ := wsNlSplits_suffix hmem
      have h1 : rest2 <:+ '-' :: '-' :: '-' :: rest2 :=
        (List.suffix_cons _ _).trans
          ((List.suffix_cons _ _).trans (List.suffix_cons _ _))
      exact ⟨by simp; omega, hsuf.trans h1⟩
  · exact absurd h (by simp)

theorem findClose_suffix {s r : Str} (h : findClose s = some r) :
    r.length < s.length ∧ r <:+ s := by
  induction s with
  | nil => simp [findClose] at h
  | cons c rest ih =>
      rw [findClose] at h
      by_cases hc : c = '\n'
      · rw [if_pos hc] at h
        cases e : closeAt rest with
        | some rem =>
            rw [e] at h
            obtain rfl : rem = r := by simpa using h
            obtain ⟨hl, hsuf⟩ := closeAt_suffix e
            exact ⟨Nat.lt_trans hl (by simp), hsuf.trans (List.suffix_cons _ _)⟩
        | none =>
            rw [e] at h
            obtain ⟨hl, hsuf⟩ := ih h
            exact ⟨Nat.lt_trans hl (by simp), hsuf.trans (List.suffix_cons _ _)⟩
      · rw [if_neg hc] at h
        obtain ⟨hl, hsuf⟩ := ih h
        exact ⟨Nat.lt_trans hl (by simp), hsuf.trans (List.suffix_cons _ _)⟩

theorem tryOpens_ex {l : List Str} {r : Str} (h : tryOpens l = some r) :
    ∃ x ∈ l, findClose x = some r := by
  induction l with
  | nil => simp [tryOpens] at h
  | cons a l ih =>
      rw [tryOpens] at h
      cases e : findClose a with
      | some rem =>
          rw [e] at h
          obtain rfl : rem = r := by simpa using h
          exact ⟨a, by simp, e⟩
      | none =>
          rw [e] at h
          obtain ⟨x, hx, hfc⟩ := ih h
          exact ⟨x, by simp [hx], hfc⟩

theorem fmMatch_suffix {s r : Str} (h : fmMatch s = some r) :
    r.length < s.length ∧ r <:+ s := by
  unfold fmMatch at h
  split at h
  · next rest =>
      obtain ⟨x, hx, hfc⟩ := tryOpens_ex h
      rw [List.mem_reverse] at hx
      obtain ⟨hl1, hs1⟩ := wsNlSplits_suffix hx
      obtain ⟨hl2, hs2⟩ := findClose_suffix hfc
      have h1 : rest <:+ '-' :: '-' :: '-' :: rest :=
        (List.suffix_cons _ _).trans
          ((List.suffix_cons _ _).trans (List.suffix_cons _ _))
      exact ⟨by simp; omega, (hs2.trans hs1).trans h1⟩
  · exact absurd h (by simp)

theorem removeFrontmatter_of_match {s r : Str} (h : fmMatch s = some r) :
    removeFrontmatter s = r := by
  unfold removeFrontmatter; rw [h]

theorem removeFrontmatter_of_none {s : Str} (h : fmMatch s = none) :
    removeFrontmatter s = s := by
  unfold removeFrontmatter; rw [h]

/-- C4 fails on the code: the text
`---\na\n---\n---\nb\n---\nX` begins with a well-formed frontmatter block
at position zero, yet stripping it twice gives `X` while stripping once
gives `---\nb\n---\nX` — one application removes exactly one leading
block. -/
theorem c4_counterexample :
    specBlockAtStart t4CE ∧
      removeFrontmatter (removeFrontmatter t4CE) ≠ removeFrontmatter t4CE :=
  ⟨⟨("a\n").data, ("---\nb\n---\nX").data, by decide⟩, by decide⟩

/-- C4 as amended: `remove_frontmatter` is idempotent at a text exactly
when the result of the first application no longer matches the
frontmatter pattern; a text whose body after the first block again starts
with a block is stripped twice. -/
theorem c4_strip_idempotent_iff (t : Str) :
    removeFrontmatter (removeFrontmatter t) = removeFrontmatter t ↔
      fmMatch (removeFrontmatter t) = none := by
  constructor
  · intro h
    cases hm : fmMatch (removeFrontmatter t) with
    | none => rfl
    | some r =>
        have h2 := removeFrontmatter_of_match hm
        rw [h] at h2
        have h3 := (fmMatch_suffix hm).1
        rw [h2] at h3
        exact absurd h3 (by omega)
  · intro h
    exact removeFrontmatter_of_none h

/-- C5 fails on the code: `--- \nx\n---\n` has no frontmatter block of
the spec's exact shape at position zero (its first line is `--- ` with a
trailing space, not exactly `---`), yet `remove_frontmatter` strips it to
the empty text because the pattern tolerates whitespace after the
delimiter. -/
theorem c5_counterexample :
    ¬ specBlockAtStart t5CE ∧ removeFrontmatter t5CE ≠ t5CE := by
  constructor
  · rintro ⟨b, r, h⟩
    have h4 : t5CE.take 4 = ("---\n").data := by
      rw [h]; exact List.take_left' (by rfl)
    exact absurd h4 (by decide)
  · decide

/-- C5 as amended: the delimiter lines of the stripped block are `---`
followed by optional whitespace and a newline; when no such pattern
matches at position zero the text is returned unchanged, and in every
case only a prefix of the text is ever removed — a `---` block anywhere
except at position zero is untouched. -/
theorem c5_no_match_unchanged (t : Str) :
    (fmMatch t = none → removeFrontmatter t = t) ∧
      ∃ p, p ++ removeFrontmatter t = t := by
  constructor
  · exact removeFrontmatter_of_none
  · cases hm : fmMatch t with
    | none => exact ⟨[], by rw [removeFrontmatter_of_none hm]; simp⟩
    | some r =>
        rw [removeFrontmatter_of_match hm]
        exact (fmMatch_suffix hm).2

theorem c5_no_match_unchanged_witness :
    removeFrontmatter (("hello").data) = ("hello").data ∧
      ∃ p, p ++ removeFrontmatter (("hello").data) = ("hello").data :=
  ⟨(c5_no_match_unchanged (("hello").data)).1 (by decide),
    (c5_no_match_unchanged (("hello").data)).2⟩

theorem splitBar_no_bar {t : Str} (h : '|' ∉ t) : splitBar t = [t] := by
  induction t with
  | nil => rfl
  | cons c rest ih =>
      have hc : ¬ c = '|' := fun e => h (e ▸ List.mem_cons_self c rest)
      have hr : '|' ∉ rest := fun e => h (List.mem_cons_of_mem c e)
      rw [splitBar, if_neg hc, ih hr]

theorem splitBar_bar_append {t : Str} (u : Str) (h : '|' ∉ t) :
    splitBar (t ++ '|' :: u) = t :: splitBar u := by
  induction t with
  | nil => simp [splitBar]
  | cons c rest ih =>
      have hc : ¬ c = '|' := fun e => h (e ▸ List.mem_cons_self c rest)
      have hr : '|' ∉ rest := fun e => h (List.mem_cons_of_mem c e)
      rw [List.cons_append, splitBar, if_neg hc, ih hr]

/-- C6: link resolution.  A bare `[[Target]]` whose `Target.md` is listed
in the configured pages becomes `[Target](Target.html)`; with a display
override, `[[Target|Shown]]` becomes `[Shown](Target.html)`; when
`Target.md` is not listed, only the bare visible text survives, with no
bracket syntax.  The hypotheses say the written target and override carry
no surrounding whitespace and no `|`, as in the claim's `[[Target]]`
form. -/
theorem c6_link_resolution (env : Env) (target shown : Str)
    (ht : stripStr target = target) (hs : stripStr shown = shown)
    (hbt : '|' ∉ target) (hbs : '|' ∉ shown) :
    processLinksCB env target =
      (if target ++ ((".md").data) ∈ env.pages then
        '[' :: (target ++ ']' :: '(' :: (target ++ ((".html)").data)))
       else target) ∧
    processLinksCB env (target ++ '|' :: shown) =
      (if target ++ ((".md").data) ∈ env.pages then
        '[' :: (shown ++ ']' :: '(' :: (target ++ ((".html)").data)))
       else shown) := by
  constructor
  · unfold processLinksCB
    rw [splitBar_no_bar hbt]
    simp [ht]
  · unfold processLinksCB
    rw [splitBar_bar_append shown hbt, splitBar_no_bar hbs]
    simp [ht, hs]

theorem c6_link_resolution_witness :
    processLinksCB envL (("B").data) =
      (if (("B").data) ++ ((".md").data) ∈ envL.pages then
        '[' :: ((("B").data) ++ ']' :: '(' :: ((("B").data) ++ ((".html)").data)))
       else ("B").data) ∧
    processLinksCB envL ((("B").data) ++ '|' :: (("Shown").data)) =
      (if (("B").data) ++ ((".md").data) ∈ envL.pages then
        '[' :: ((("Shown").data) ++ ']' :: '(' :: ((("B").data) ++ ((".html)").data)))
       else ("Shown").data) :=
  c6_link_resolution envL (("B").data) (("Shown").data)
    (by decide) (by decide) (by decide) (by decide)

theorem processContentAux_succ (env : Env) (fuel : Nat) (content : Str) :
    processContentAux env (fuel + 1) content =
      ((subMdImagesWith (mdImageCB env)
          (subLinksWith (processLinksCB env)
            (subEmbedsWith (embedCB env (processContentAux env fuel)) content).1)).1,
        (subEmbedsWith (embedCB env (processContentAux env fuel)) content).2 ++
          (subMdImagesWith (mdImageCB env)
            (subLinksWith (processLinksCB env)
              (subEmbedsWith (embedCB env (processContentAux env fuel)) content).1)).2) :=
  rfl

theorem subEmbeds_on_missing (f : Str → Str × Ops) :
    subEmbedsWith f (("![[Missing]]").data) = f (("Missing").data) := by
  have e : subEmbedsWith f (("![[Missing]]").data) =
      ((f (("Missing").data)).1 ++ [], (f (("Missing").data)).2 ++ []) := rfl
  rw [e]
  simp

theorem subLinks_on_missing (f : Str → Str) :
    subLinksWith f (("![[Missing]]").data) = '!' :: f (("Missing").data) := by
  have e : subLinksWith f (("![[Missing]]").data) =
      '!' :: (f (("Missing").data) ++ []) := rfl
  rw [e]
  simp

/-- C1 as amended: in any run environment where `Missing.md` is neither a
vault file nor a configured page, the embed pass preserves `![[Missing]]`
literally, but the following link pass matches the inner `[[Missing]]`
and strips the brackets, so the full three-pass transformation outputs
`!Missing` (with no image copies), not the unchanged literal text. -/
theorem c1_missing_embed_amended (env : Env)
    (hfs : lookupFS env (pjoin env.vault (("Missing.md").data)) = none)
    (hpg : (("Missing.md").data) ∉ env.pages) :
    processContent env (("![[Missing]]").data) 0 = ((("!Missing").data), []) := by
  have h2 : embedCB env (processContentAux env 10) (("Missing").data) =
      ((("![[Missing]]").data), ([] : Ops)) := by
    have e : embedCB env (processContentAux env 10) (("Missing").data) =
        (match lookupFS env (pjoin env.vault (("Missing.md").data)) with
         | some c => processContentAux env 10 (removeFrontmatter c)
         | none => ((("![[Missing]]").data), ([] : Ops))) := rfl
    rw [e, hfs]
  have h4 : processLinksCB env (("Missing").data) = ("Missing").data := by
    have e : processLinksCB env (("Missing").data) =
        (if (("Missing.md").data) ∈ env.pages then
          ("[Missing](Missing.html)").data
         else ("Missing").data) := rfl
    rw [e, if_neg hpg]
  have h5 : subMdImagesWith (mdImageCB env) (("!Missing").data) =
      ((("!Missing").data), ([] : Ops)) := rfl
  show processContentAux env (10 + 1) (("![[Missing]]").data) = _
  rw [processContentAux_succ, subEmbeds_on_missing, h2, subLinks_on_missing, h4]
  rw [show ('!' :: (("Missing").data)) = (("!Missing").data) from rfl, h5]
  rfl

theorem c1_missing_embed_amended_witness :
    lookupFS envC1 (pjoin envC1.vault (("Missing.md").data)) = none ∧
      (("Missing.md").data) ∉ envC1.pages ∧
      processContent envC1 (("![[Missing]]").data) 0 = ((("!Missing").data), []) :=
  ⟨by decide, by decide, c1_missing_embed_amended envC1 (by decide) (by decide)⟩

/-- C9: a page whose processing fails (`processPage` returns `none`,
modelling the caught per-page exception) is simply skipped: every other
page that processes successfully still appears in the list handed to the
index and feeds, and everything in that list comes from a page that
processed successfully — so the failed page is absent and the run always
completes. -/
theorem c9_page_failure_isolated (env : Env) (p q : Str) (r : ProcessedPage)
    (hp : p ∈ env.pages) (hfail : processPage env p = none)
    (hq : q ∈ env.pages) (hok : processPage env q = some r) :
    r ∈ sitePages env ∧
      ∀ r2 ∈ sitePages env, ∃ q2 ∈ env.pages, processPage env q2 = some r2 := by
  constructor
  · unfold sitePages
    rw [List.mem_mergeSort]
    exact List.mem_filterMap.mpr ⟨q, hq, hok⟩
  · intro r2 hr2
    unfold sitePages at hr2
    rw [List.mem_mergeSort] at hr2
    obtain ⟨q2, hq2, hq2r⟩ := List.mem_filterMap.mp hr2
    exact ⟨q2, hq2, hq2r⟩

theorem c9_page_failure_isolated_witness :
    pageA9 ∈ sitePages envW9 ∧
      ∀ r2 ∈ sitePages envW9, ∃ q2 ∈ envW9.pages, processPage envW9 q2 = some r2 :=
  c9_page_failure_isolated envW9 (("Bad.md").data) (("A.md").data) pageA9
    (by decide) (by decide) (by decide) (by decide)

/-- C10: after every page is processed, the list handed to the index
template and to the feed generator is sorted by last-modified timestamp,
newest first, whatever the order of the configuration's `pages` — and the
feed entries inherit that order through their published timestamps. -/
theorem c10_sorted_newest_first (env : Env) :
    List.Pairwise (fun a b => b.lastModified ≤ a.lastModified) (sitePages env) ∧
      List.Pairwise (fun a b => b.published ≤ a.published) (feedEntriesOf env) := by
  have hmain : List.Pairwise
      (fun a b => b.lastModified ≤ a.lastModified) (sitePages env) := by
    unfold sitePages
    refine List.Pairwise.imp ?_
      (List.sorted_mergeSort ?_ ?_ (env.pages.filterMap (processPage env)))
    · intro a b h
      simpa [pageLE] using h
    · intro a b c hab hbc
      simp only [pageLE, decide_eq_true_eq] at *
      omega
    · intro a b
      simp only [pageLE, Bool.or_eq_true, decide_eq_true_eq]
      omega
  refine ⟨hmain, ?_⟩
  unfold feedEntriesOf
  exact hmain.map _ (fun a b h => h)

end Gen
